import Mathlib

/-!
Verification of the `Blockchain` class of `blockchain.py` (modules: `blockchain.py`,
`app.py`, `main.py`).  The Python class is shallowly embedded: blocks and
transactions become structures, the mutable `Blockchain` object becomes an
explicit state record, every method becomes a pure state-passing function,
`hashlib.sha256` becomes an executable SHA-256 over byte lists, and
`json.dumps(..., sort_keys=True)` becomes an explicit canonical serializer.

Modelling conventions:
* Machine integers are `Nat`/`Int` with explicit `% 2^32` where 32-bit
  overflow matters (the SHA-256 compression function).
* Transaction amounts are modelled as `Int` (the Python field is
  `Union[int, float]`; every property checked here concerns integer amounts,
  and `json.dumps` prints Python ints exactly as `Int` decimal notation).
* `datetime.now().isoformat()` is modelled by passing the produced timestamp
  string explicitly to each operation that reads the clock.
* Fallible operations return `Option`/`Except`; the unbounded
  `proof_of_work` loop takes explicit fuel.
-/

/-! ## SHA-256 over lists of bytes -/

/-- Truncate to a 32-bit word. -/
def w32 (n : Nat) : Nat := n % 4294967296

/-- Right rotation of a 32-bit word by `n` bits (`0 < n < 32` in all uses). -/
def rotr32 (n x : Nat) : Nat := w32 ((x >>> n) ||| (x <<< (32 - n)))

/-- Bitwise complement within 32 bits (valid for `x < 2^32`). -/
def not32 (x : Nat) : Nat := 4294967295 ^^^ x

def smallSigma0 (x : Nat) : Nat := (rotr32 7 x) ^^^ (rotr32 18 x) ^^^ (x >>> 3)
def smallSigma1 (x : Nat) : Nat := (rotr32 17 x) ^^^ (rotr32 19 x) ^^^ (x >>> 10)
def bigSigma0 (x : Nat) : Nat := (rotr32 2 x) ^^^ (rotr32 13 x) ^^^ (rotr32 22 x)
def bigSigma1 (x : Nat) : Nat := (rotr32 6 x) ^^^ (rotr32 11 x) ^^^ (rotr32 25 x)

/-- The 64 SHA-256 round constants (FIPS 180-4), written in decimal. -/
def sha256K : List Nat :=
  [1116352408, 1899447441, 3049323471, 3921009573, 961987163,
   1508970993, 2453635748, 2870763221, 3624381080, 310598401,
   607225278, 1426881987, 1925078388, 2162078206, 2614888103,
   3248222580, 3835390401, 4022224774, 264347078, 604807628,
   770255983, 1249150122, 1555081692, 1996064986, 2554220882,
   2821834349, 2952996808, 3210313671, 3336571891, 3584528711,
   113926993, 338241895, 666307205, 773529912, 1294757372,
   1396182291, 1695183700, 1986661051, 2177026350, 2456956037,
   2730485921, 2820302411, 3259730800, 3345764771, 3516065817,
   3600352804, 4094571909, 275423344, 430227734, 506948616,
   659060556, 883997877, 958139571, 1322822218, 1537002063,
   1747873779, 1955562222, 2024104815, 2227730452, 2361852424,
   2428436474, 2756734187, 3204031479, 3329325298]

/-- The SHA-256 initial hash value (FIPS 180-4), written in decimal. -/
def sha256H0 : List Nat :=
  [1779033703, 3144134277, 1013904242, 2773480762, 1359893119,
   2600822924, 528734635, 1541459225]

/-- Big-endian byte serialization of `v` into `k` bytes. -/
def beBytes : Nat → Nat → List Nat
  | 0, _ => []
  | k + 1, v => beBytes k (v / 256) ++ [v % 256]

/-- SHA-256 padding: append `0x80`, zeros, then the 64-bit bit length. -/
def sha256pad (msg : List Nat) : List Nat :=
  let L := msg.length
  let z := (119 - (L % 64)) % 64
  msg ++ [128] ++ List.replicate z 0 ++ beBytes 8 (L * 8)

/-- Group bytes into big-endian 32-bit words. -/
def bytesToWords : List Nat → List Nat
  | b0 :: b1 :: b2 :: b3 :: rest =>
      (b0 * 16777216 + b1 * 65536 + b2 * 256 + b3) :: bytesToWords rest
  | _ => []

/-- Extend a message schedule by `k` further words. -/
def extendSched : List Nat → Nat → List Nat
  | ws, 0 => ws
  | ws, k + 1 =>
      let t := ws.length
      let nw := w32 (smallSigma1 (ws.getD (t - 2) 0) + ws.getD (t - 7) 0 +
                     smallSigma0 (ws.getD (t - 15) 0) + ws.getD (t - 16) 0)
      extendSched (ws ++ [nw]) k

/-- One round of the SHA-256 compression function on the 8-word state. -/
def compressStep (st : List Nat) (kw : Nat × Nat) : List Nat :=
  match st with
  | [a, b, c, d, e, f, g, h] =>
      let t1 := w32 (h + bigSigma1 e + ((e &&& f) ^^^ ((not32 e) &&& g)) + kw.1 + kw.2)
      let t2 := w32 (bigSigma0 a + ((a &&& b) ^^^ (a &&& c) ^^^ (b &&& c)))
      [w32 (t1 + t2), a, b, c, w32 (d + t1), e, f, g]
  | other => other

/-- Process one padded 64-byte chunk, updating the 8-word hash state. -/
def sha256Chunk (h : List Nat) (chunk : List Nat) : List Nat :=
  let ws := extendSched (bytesToWords chunk) 48
  let st := List.foldl compressStep h (sha256K.zip ws)
  List.zipWith (fun a b => w32 (a + b)) h st

/-- Split a list into 64-element chunks (`fuel` bounds the recursion). -/
def chunks64 : Nat → List Nat → List (List Nat)
  | 0, _ => []
  | k + 1, l => l.take 64 :: chunks64 k (l.drop 64)

/-- The eight 32-bit words of the SHA-256 digest of a byte string. -/
def sha256Words (msg : List Nat) : List Nat :=
  let padded := sha256pad msg
  List.foldl sha256Chunk sha256H0 (chunks64 (padded.length / 64) padded)

/-- Lowercase hexadecimal digit for a nibble. -/
def hexDigit (n : Nat) : Char :=
  if n < 10 then Char.ofNat (48 + n) else Char.ofNat (87 + n)

/-- The `k` low nibbles of `v`, most significant first. -/
def nibbles : Nat → Nat → List Nat
  | 0, _ => []
  | k + 1, v => nibbles k (v / 16) ++ [v % 16]

/-- Lowercase hex rendering of the SHA-256 digest, as a list of 64 chars.
This is `hashlib.sha256(msg).hexdigest()`. -/
def sha256hex (msg : List Nat) : List Char :=
  (sha256Words msg).map (fun w => (nibbles 8 w).map hexDigit) |>.flatten

/-- The bytes of an ASCII string (`str.encode()`; every string this
development hashes is pure ASCII, where UTF-8 bytes equal code points). -/
def strBytes (s : String) : List Nat := s.data.map Char.toNat

/-! ## Data model

`Blockchain.__init__` fields become an explicit state record.  Block and
transaction dictionaries become structures, in source field order. -/

/-- A pending or sealed transaction (`add_transaction`'s dictionary; the
optional `**kwargs` extras are not used by any property below and are
omitted). -/
structure Transaction where
  sender : String
  recipient : String
  amount : Int
  timestamp : String
deriving DecidableEq, Repr

/-- A block dictionary as built by `create_block`.  `previous_hash` has
Python type `Optional[str]`, hence `Option String`. -/
structure Block where
  index : Int
  timestamp : String
  transactions : List Transaction
  proof : Int
  previous_hash : Option String
deriving DecidableEq, Repr

/-- The mutable state of a `Blockchain` instance.  Python's `set` of node
addresses is modelled as a duplicate-free list (`List.insert` is a no-op on
an already-present element, like `set.add`). -/
structure BState where
  chain : List Block
  current_transactions : List Transaction
  nodes : List String
  difficulty : Nat
deriving DecidableEq, Repr

/-! ## Canonical JSON serialization

`Blockchain.hash` serializes via `json.dumps(block, sort_keys=True)`:
keys in lexicographic order, item separator `", "`, key separator `": "`,
`ensure_ascii=True` escaping (so the output is pure ASCII). -/

/-- Four lowercase hex digits, as in Python's `\uXXXX` JSON escapes. -/
def hex4 (n : Nat) : List Char := (nibbles 4 n).map hexDigit

/-- Escape one character exactly as `json.dumps` (default `ensure_ascii`)
does: two-character short escapes, `\uXXXX` for other controls and all
non-ASCII (UTF-16 surrogate pairs above U+FFFF). -/
def jsonEscChar (c : Char) : List Char :=
  if c = '"' then ['\\', '"']
  else if c = '\\' then ['\\', '\\']
  else if c.toNat = 10 then ['\\', 'n']
  else if c.toNat = 13 then ['\\', 'r']
  else if c.toNat = 9 then ['\\', 't']
  else if c.toNat = 8 then ['\\', 'b']
  else if c.toNat = 12 then ['\\', 'f']
  else if c.toNat < 32 || c.toNat > 126 then
    if c.toNat < 65536 then '\\' :: 'u' :: hex4 c.toNat
    else
      let v := c.toNat - 65536
      ('\\' :: 'u' :: hex4 (55296 + v / 1024)) ++ ('\\' :: 'u' :: hex4 (56320 + v % 1024))
  else [c]

/-- A JSON string literal for `s`. -/
def jsonStr (s : String) : String :=
  "\"" ++ String.mk (s.data.map jsonEscChar).flatten ++ "\""

/-- `json.dumps(tx, sort_keys=True)`: keys `amount < recipient < sender <
timestamp` in lexicographic order. -/
def jsonTx (t : Transaction) : String :=
  "\x7b\"amount\": " ++ toString t.amount ++
  ", \"recipient\": " ++ jsonStr t.recipient ++
  ", \"sender\": " ++ jsonStr t.sender ++
  ", \"timestamp\": " ++ jsonStr t.timestamp ++ "\x7d"

/-- `json.dumps(block, sort_keys=True)`: keys `index < previous_hash <
proof < timestamp < transactions`; a `None` previous hash prints `null`. -/
def jsonBlock (b : Block) : String :=
  "\x7b\"index\": " ++ toString b.index ++
  ", \"previous_hash\": " ++
    (match b.previous_hash with
     | none => "null"
     | some h => jsonStr h) ++
  ", \"proof\": " ++ toString b.proof ++
  ", \"timestamp\": " ++ jsonStr b.timestamp ++
  ", \"transactions\": [" ++ String.intercalate ", " (b.transactions.map jsonTx) ++
  "]\x7d"

/-- `Blockchain.hash`: SHA-256 hex digest of the canonical serialization. -/
def pyhash (b : Block) : String := String.mk (sha256hex (strBytes (jsonBlock b)))

/-! ## Proof of work -/

/-- `Blockchain.valid_proof`: the digest of the textual concatenation
`f'{last_proof}{proof}'` must start with `difficulty` `'0'` characters
(`guess_hash[:difficulty] == '0' * difficulty`). -/
def valid_proof (difficulty : Nat) (last_proof proof : Int) : Bool :=
  let guess_hash := sha256hex (strBytes (toString last_proof ++ toString proof))
  guess_hash.take difficulty == List.replicate difficulty '0'

/-- The `while` loop of `Blockchain.proof_of_work`, trying candidate proofs
`p, p+1, p+2, ...`; `fuel` bounds the number of iterations modelled (the
Python loop is unbounded and in general need not terminate). -/
def proof_of_work_from (difficulty : Nat) (last_proof : Int) : Nat → Nat → Option Nat
  | _, 0 => none
  | p, fuel + 1 =>
      if valid_proof difficulty last_proof (Int.ofNat p) then some p
      else proof_of_work_from difficulty last_proof (p + 1) fuel

/-- `Blockchain.proof_of_work`: search upward from candidate `0`. -/
def proof_of_work (difficulty : Nat) (last_proof : Int) (fuel : Nat) : Option Nat :=
  proof_of_work_from difficulty last_proof 0 fuel

/-! ## Ledger operations -/

/-- `Blockchain.create_block`: resolve `previous_hash` (hash of the chain
tail when `None` is passed and the chain is non-empty), build the block
from the pending pool, clear the pool, append the block. -/
def create_block (st : BState) (proof : Int) (previous_hash : Option String)
    (now : String) : Block × BState :=
  let ph : Option String :=
    match previous_hash with
    | some h => some h
    | none =>
        match st.chain.getLast? with
        | some lb => some (pyhash lb)
        | none => none
  let block : Block :=
    { index := (st.chain.length : Int) + 1
      timestamp := now
      transactions := st.current_transactions
      proof := proof
      previous_hash := ph }
  (block, { st with chain := st.chain ++ [block], current_transactions := [] })

/-- `Blockchain.__init__`: empty chain, pool and node set, then the genesis
block via `create_block(proof=1, previous_hash='0')`. -/
def Blockchain.init (difficulty : Nat) (now : String) : BState :=
  (create_block
    { chain := [], current_transactions := [], nodes := [], difficulty := difficulty }
    1 (some "0") now).2

/-- `Blockchain.add_transaction`: append the transaction to the pool and
return `last_block['index'] + 1`.  `none` models the `IndexError` that
`self.last_block` raises on an empty chain (unreachable after
construction). -/
def add_transaction (st : BState) (sender recipient : String) (amount : Int)
    (now : String) : Option (Int × BState) :=
  let tx : Transaction :=
    { sender := sender, recipient := recipient, amount := amount, timestamp := now }
  match st.chain.getLast? with
  | some lb =>
      some (lb.index + 1, { st with current_transactions := st.current_transactions ++ [tx] })
  | none => none

/-- The per-index body of the validation loop of `Blockchain.is_valid_chain`:
check hash linkage, then proof of work, walking consecutive blocks. -/
def chainLinksFrom (d : Nat) : Block → List Block → Bool
  | _, [] => true
  | prev, b :: rest =>
      if b.previous_hash ≠ some (pyhash prev) then false
      else if ¬ valid_proof d prev.proof b.proof then false
      else chainLinksFrom d b rest

/-- `Blockchain.is_valid_chain`: empty chains are invalid, the genesis
block must carry `previous_hash == '0'` and `proof == 1`, and every later
block must link to the hash of its predecessor with a valid proof. -/
def is_valid_chain (d : Nat) (chain : List Block) : Bool :=
  match chain with
  | [] => false
  | g :: rest =>
      if g.previous_hash ≠ some "0" ∨ g.proof ≠ 1 then false
      else chainLinksFrom d g rest

/-- `Blockchain.mine_block`: read the tail block, run proof of work on its
proof, seal a new block whose `previous_hash` is the tail's hash.  `none`
models an empty chain (`IndexError`, unreachable) or exhausted fuel. -/
def mine_block (st : BState) (fuel : Nat) (now : String) : Option (Block × BState) :=
  match st.chain.getLast? with
  | none => none
  | some lb =>
      match proof_of_work st.difficulty lb.proof fuel with
      | none => none
      | some proof => some (create_block st (Int.ofNat proof) (some (pyhash lb)) now)

/-! ## Peer registration (`urllib.parse.urlparse` model)

`register_node` keeps `urlparse(address).netloc` when non-empty, else the
parsed path, else raises `ValueError`.  The parser below models CPython
3.11 `urlparse` restricted to the two components `register_node` reads
(netloc and path).  CPython 3.11 additionally validates bracketed IPv6
hosts and non-ASCII netlocs; on bracket-free ASCII inputs — all inputs the
properties below quantify over — the model is exact. -/

/-- Characters allowed in a URL scheme (`scheme_chars`). -/
def schemeChar (c : Char) : Bool :=
  c.isAlpha || c.isDigit || c == '+' || c == '-' || c == '.'

/-- Split at the first occurrence of `d`, if any (`str.split(d, 1)`). -/
def splitFirstAux (d : Char) : List Char → Option (List Char × List Char)
  | [] => none
  | c :: rest =>
      if c == d then some ([], rest)
      else (splitFirstAux d rest).map (fun p => (c :: p.1, p.2))

/-- `url.lstrip(_WHATWG_C0_CONTROL_OR_SPACE)`: drop leading code points
`≤ 0x20` (CPython deliberately does not strip trailing ones). -/
def lstripC0 (l : List Char) : List Char := l.dropWhile (fun c => c.toNat ≤ 32)

/-- Remove `_UNSAFE_URL_BYTES_TO_REMOVE` (tab, carriage return, newline). -/
def removeUnsafe (l : List Char) : List Char :=
  l.filter (fun c => !(c == '\t' || c == '\r' || c == '\n'))

/-- The scheme split: at the first `':'`, provided the text before it is
non-empty, starts with an ASCII letter and consists of scheme characters.
Returns `(lowercased scheme, rest)` when the split applies. -/
def takeScheme (l : List Char) : Option (List Char × List Char) :=
  match splitFirstAux ':' l with
  | none => none
  | some (pre, post) =>
      match pre with
      | [] => none
      | c0 :: _ =>
          if c0.isAlpha && pre.all schemeChar then some (pre.map Char.toLower, post)
          else none

/-- `_splitnetloc`: the netloc extends to the first `'/'`, `'?'` or `'#'`. -/
def splitNetloc : List Char → List Char × List Char
  | [] => ([], [])
  | c :: rest =>
      if c == '/' || c == '?' || c == '#' then ([], c :: rest)
      else
        let p := splitNetloc rest
        (c :: p.1, p.2)

/-- Schemes whose paths undergo `';'`-parameter splitting (`uses_params`). -/
def uses_params : List String :=
  ["", "ftp", "hdl", "prospero", "http", "imap", "https", "shttp", "rtsp",
   "rtsps", "rtspu", "sip", "sips", "mms", "sftp", "tel"]

/-- `_splitparams`: cut the path at the first `';'` at or after the last
`'/'` (or the first `';'` anywhere when there is no `'/'`). -/
def splitparams (l : List Char) : List Char :=
  match l.reverse.findIdx? (fun c => c == '/') with
  | some rj =>
      let k := l.length - 1 - rj
      match (l.drop k).findIdx? (fun c => c == ';') with
      | some j => l.take (k + j)
      | none => l
  | none =>
      match l.findIdx? (fun c => c == ';') with
      | some j => l.take j
      | none => l

/-- `urlparse(address)`, reduced to `(netloc, path)`.  `Except.error`
models the `ValueError("Invalid IPv6 URL")` raised on a netloc with
unbalanced square brackets. -/
def pyUrlparse (address : String) : Except String (String × String) :=
  let u0 := removeUnsafe (lstripC0 address.data)
  let schemeUrl :=
    match takeScheme u0 with
    | some p => p
    | none => ([], u0)
  let scheme := schemeUrl.1
  let u1 := schemeUrl.2
  let netlocUrl :=
    if u1.take 2 == ['/', '/'] then splitNetloc (u1.drop 2)
    else ([], u1)
  let netloc := netlocUrl.1
  let u2 := netlocUrl.2
  if (netloc.contains '[' && !netloc.contains ']') ||
     (netloc.contains ']' && !netloc.contains '[') then
    Except.error "Invalid IPv6 URL"
  else
    let u3 := match splitFirstAux '#' u2 with | some p => p.1 | none => u2
    let u4 := match splitFirstAux '?' u3 with | some p => p.1 | none => u3
    let path :=
      if uses_params.contains (String.mk scheme) && u4.contains ';' then splitparams u4
      else u4
    Except.ok (String.mk netloc, String.mk path)

/-- `Blockchain.register_node`: add the netloc when truthy, else the path
when truthy, else raise `ValueError('Invalid URL')`. -/
def register_node (st : BState) (address : String) : Except String BState :=
  match pyUrlparse address with
  | Except.error e => Except.error e
  | Except.ok (netloc, path) =>
      if netloc ≠ "" then Except.ok { st with nodes := st.nodes.insert netloc }
      else if path ≠ "" then Except.ok { st with nodes := st.nodes.insert path }
      else Except.error "Invalid URL"

/-! ## Consensus (`resolve_conflicts`)

The HTTP transport is abstracted into a list of per-peer outcomes, one per
iteration of the `for node in neighbors` loop.  A `requests.get` that
raises `requests.RequestException` (unreachable peer; in current
`requests` releases also an undecodable JSON body) is `transportError` —
the source catches exactly this class.  A reachable peer yields a status
code and a body; a body lacking the `'length'` or `'chain'` key is
`malformed`: reading it raises `KeyError`, which is *not* a
`RequestException` and escapes the `try`. -/

/-- Parsed JSON body of a peer's `/chain` response. -/
inductive PeerBody where
  | fields (length : Int) (chain : List Block)
  | malformed
deriving DecidableEq, Repr

/-- Outcome of one peer fetch. -/
inductive PeerOutcome where
  | transportError
  | response (status : Nat) (body : PeerBody)
deriving DecidableEq, Repr

/-- The `for node in neighbors` loop of `resolve_conflicts`, threading
`max_length` and `new_chain`.  `Except.error ()` models the uncaught
`KeyError` on a 200 response with a malformed body. -/
def resolveLoop (d : Nat) :
    List PeerOutcome → Int → Option (List Block) → Except Unit (Option (List Block))
  | [], _, best => Except.ok best
  | PeerOutcome.transportError :: rest, maxLen, best => resolveLoop d rest maxLen best
  | PeerOutcome.response status body :: rest, maxLen, best =>
      if status == 200 then
        match body with
        | PeerBody.malformed => Except.error ()
        | PeerBody.fields len chain =>
            if maxLen < len && is_valid_chain d chain then
              resolveLoop d rest len (some chain)
            else resolveLoop d rest maxLen best
      else resolveLoop d rest maxLen best

/-- `Blockchain.resolve_conflicts`: run the loop starting from
`max_length = len(self.chain)`, then replace the chain iff `new_chain` is
truthy (a non-`None`, non-empty list). -/
def resolve_conflicts (st : BState) (outcomes : List PeerOutcome) :
    Except Unit (Bool × BState) :=
  match resolveLoop st.difficulty outcomes (st.chain.length : Int) none with
  | Except.error e => Except.error e
  | Except.ok best =>
      match best with
      | some c =>
          if c.isEmpty then Except.ok (false, st)
          else Except.ok (true, { st with chain := c })
      | none => Except.ok (false, st)

/-! ## Helper lemmas -/

/-- Unfolding of the validation walk at a cons cell. -/
theorem chainLinksFrom_cons (d : Nat) (prev x : Block) (rest : List Block) :
    chainLinksFrom d prev (x :: rest) = true ↔
      x.previous_hash = some (pyhash prev) ∧ valid_proof d prev.proof x.proof = true ∧
        chainLinksFrom d x rest = true := by
  rw [chainLinksFrom]
  split_ifs with h1 h2
  · simp [h1]
  · simp_all
  · simp_all

/-- The validation walk succeeds iff every adjacent pair of
`prev :: bs` is correctly hash-linked with a valid proof. -/
theorem chainLinksFrom_iff (d : Nat) (bs : List Block) (prev : Block) :
    chainLinksFrom d prev bs = true ↔
      ∀ i a b, (prev :: bs).get? i = some a → (prev :: bs).get? (i + 1) = some b →
        b.previous_hash = some (pyhash a) ∧ valid_proof d a.proof b.proof = true := by
  induction bs generalizing prev with
  | nil =>
    simp only [chainLinksFrom, true_iff]
    intro i a b _ hb
    rcases i with _ | i <;> simp at hb
  | cons x rest ih =>
    rw [chainLinksFrom_cons, ih]
    constructor
    · rintro ⟨hl, hp, hrest⟩ i a b ha hb
      rcases i with _ | i
      · simp at ha
        subst ha
        simp at hb
        subst hb
        exact ⟨hl, hp⟩
      · exact hrest i a b ha hb
    · intro h
      refine ⟨(h 0 prev x rfl rfl).1, (h 0 prev x rfl rfl).2, ?_⟩
      intro i a b ha hb
      exact h (i + 1) a b ha hb

/-- `is_valid_chain` characterized: non-empty, genesis shape, and every
adjacent pair hash-linked with a valid proof. -/
theorem is_valid_chain_iff (d : Nat) (c : List Block) :
    is_valid_chain d c = true ↔
      c ≠ [] ∧
      (∀ g, c.get? 0 = some g → g.previous_hash = some "0" ∧ g.proof = 1) ∧
      (∀ i a b, c.get? i = some a → c.get? (i + 1) = some b →
        b.previous_hash = some (pyhash a) ∧ valid_proof d a.proof b.proof = true) := by
  cases c with
  | nil => simp [is_valid_chain]
  | cons g rest =>
    rw [is_valid_chain]
    split_ifs with hg
    · simp only [false_iff]
      rintro ⟨-, hgen, -⟩
      rcases hg with hg | hg
      · exact hg (hgen g rfl).1
      · exact hg (hgen g rfl).2
    · push_neg at hg
      rw [chainLinksFrom_iff]
      constructor
      · intro h
        refine ⟨by simp, ?_, h⟩
        intro g' hg'
        simp at hg'
        subst hg'
        exact hg
      · rintro ⟨-, -, h⟩
        exact h

/-- A chain that validates is non-empty. -/
theorem valid_chain_ne_nil {d : Nat} {c : List Block} (h : is_valid_chain d c = true) :
    c ≠ [] :=
  ((is_valid_chain_iff d c).mp h).1

/-- The search loop, started at `start` with enough fuel to reach a valid
candidate, returns the least valid candidate at or after `start`. -/
theorem proof_of_work_from_finds (d : Nat) (lp : Int) :
    ∀ (fuel start j : Nat), j < fuel → valid_proof d lp (Int.ofNat (start + j)) = true →
      ∃ p, start ≤ p ∧ p ≤ start + j ∧ proof_of_work_from d lp start fuel = some p ∧
        valid_proof d lp (Int.ofNat p) = true ∧
        ∀ q, start ≤ q → q < p → valid_proof d lp (Int.ofNat q) = false := by
  intro fuel
  induction fuel with
  | zero => intro start j hj _; omega
  | succ n ih =>
    intro start j hj hv
    by_cases h0 : valid_proof d lp (Int.ofNat start) = true
    · refine ⟨start, Nat.le_refl _, Nat.le_add_right _ _, ?_, h0, ?_⟩
      · rw [proof_of_work_from, if_pos h0]
      · intro q hq1 hq2
        omega
    · have hj0 : j ≠ 0 := by
        rintro rfl
        exact h0 hv
      have hv' : valid_proof d lp (Int.ofNat (start + 1 + (j - 1))) = true := by
        have he : start + 1 + (j - 1) = start + j := by omega
        rw [he]
        exact hv
      obtain ⟨p, hp1, hp2, hp3, hp4, hp5⟩ := ih (start + 1) (j - 1) (by omega) hv'
      refine ⟨p, by omega, by omega, ?_, hp4, ?_⟩
      · rw [proof_of_work_from, if_neg h0]
        exact hp3
      · intro q hq1 hq2
        rcases Nat.eq_or_lt_of_le hq1 with hq | hq
        · rw [← hq]
          exact Bool.eq_false_iff.mpr h0
        · exact hp5 q (by omega) hq2

/-- Soundness of the consensus loop: a returned candidate chain either was
the incoming candidate or is a fetched 200-status chain that was strictly
longer than the running maximum and validated. -/
theorem resolveLoop_some (d : Nat) :
    ∀ (outs : List PeerOutcome) (maxLen : Int) (best : Option (List Block)) (c : List Block),
      resolveLoop d outs maxLen best = Except.ok (some c) →
      best = some c ∨ ∃ len, PeerOutcome.response 200 (PeerBody.fields len c) ∈ outs ∧
        maxLen < len ∧ is_valid_chain d c = true := by
  intro outs
  induction outs with
  | nil =>
    intro maxLen best c h
    simp [resolveLoop] at h
    exact Or.inl h
  | cons o rest ih =>
    intro maxLen best c h
    cases o with
    | transportError =>
      simp only [resolveLoop] at h
      rcases ih _ _ _ h with h1 | ⟨len, h2, h3, h4⟩
      · exact Or.inl h1
      · exact Or.inr ⟨len, List.mem_cons_of_mem _ h2, h3, h4⟩
    | response status body =>
      cases body with
      | malformed =>
        simp only [resolveLoop] at h
        by_cases hs : (status == 200) = true
        · rw [if_pos hs] at h
          exact absurd h (by simp)
        · rw [if_neg hs] at h
          rcases ih _ _ _ h with h1 | ⟨len', h2, h3, h4⟩
          · exact Or.inl h1
          · exact Or.inr ⟨len', List.mem_cons_of_mem _ h2, h3, h4⟩
      | fields len chain =>
        simp only [resolveLoop] at h
        by_cases hs : (status == 200) = true
        · rw [if_pos hs] at h
          by_cases hw : (decide (maxLen < len) && is_valid_chain d chain) = true
          · rw [if_pos hw] at h
            rcases ih _ _ _ h with h1 | ⟨len', h2, h3, h4⟩
            · rw [Option.some_inj] at h1
              subst h1
              rw [Bool.and_eq_true, decide_eq_true_iff] at hw
              have hs' : status = 200 := by simpa using hs
              subst hs'
              exact Or.inr ⟨len, List.mem_cons_self _ _, hw.1, hw.2⟩
            · rw [Bool.and_eq_true, decide_eq_true_iff] at hw
              exact Or.inr ⟨len', List.mem_cons_of_mem _ h2, lt_trans hw.1 h3, h4⟩
          · rw [if_neg hw] at h
            rcases ih _ _ _ h with h1 | ⟨len', h2, h3, h4⟩
            · exact Or.inl h1
            · exact Or.inr ⟨len', List.mem_cons_of_mem _ h2, h3, h4⟩
        · rw [if_neg hs] at h
          rcases ih _ _ _ h with h1 | ⟨len', h2, h3, h4⟩
          · exact Or.inl h1
          · exact Or.inr ⟨len', List.mem_cons_of_mem _ h2, h3, h4⟩

/-- Progress of the consensus loop: once a candidate is held, or some
fetched outcome beats the running maximum and validates, the loop cannot
return an empty candidate. -/
theorem resolveLoop_progress (d : Nat) :
    ∀ (outs : List PeerOutcome) (maxLen : Int) (best : Option (List Block))
      (r : Option (List Block)),
      resolveLoop d outs maxLen best = Except.ok r →
      (best ≠ none ∨ ∃ len c, PeerOutcome.response 200 (PeerBody.fields len c) ∈ outs ∧
        maxLen < len ∧ is_valid_chain d c = true) →
      r ≠ none := by
  intro outs
  induction outs with
  | nil =>
    intro maxLen best r h hd
    simp [resolveLoop] at h
    subst h
    rcases hd with hd | ⟨len, c, hmem, -, -⟩
    · exact hd
    · exact absurd hmem (List.not_mem_nil _)
  | cons o rest ih =>
    intro maxLen best r h hd
    cases o with
    | transportError =>
      simp only [resolveLoop] at h
      refine ih _ _ _ h ?_
      rcases hd with hd | ⟨len, c, hmem, h3, h4⟩
      · exact Or.inl hd
      · rcases List.mem_cons.mp hmem with hm | hm
        · exact absurd hm (by simp)
        · exact Or.inr ⟨len, c, hm, h3, h4⟩
    | response status body =>
      cases body with
      | malformed =>
        simp only [resolveLoop] at h
        by_cases hs : (status == 200) = true
        · rw [if_pos hs] at h
          exact absurd h (by simp)
        · rw [if_neg hs] at h
          refine ih _ _ _ h ?_
          rcases hd with hd | ⟨len', c, hmem, h3, h4⟩
          · exact Or.inl hd
          · rcases List.mem_cons.mp hmem with hm | hm
            · exfalso
              apply hs
              rw [PeerOutcome.response.injEq] at hm
              rw [← hm.1]
              rfl
            · exact Or.inr ⟨len', c, hm, h3, h4⟩
      | fields len chain =>
        simp only [resolveLoop] at h
        by_cases hs : (status == 200) = true
        · rw [if_pos hs] at h
          by_cases hw : (decide (maxLen < len) && is_valid_chain d chain) = true
          · rw [if_pos hw] at h
            exact ih _ _ _ h (Or.inl (by simp))
          · rw [if_neg hw] at h
            refine ih _ _ _ h ?_
            rcases hd with hd | ⟨len', c, hmem, h3, h4⟩
            · exact Or.inl hd
            · rcases List.mem_cons.mp hmem with hm | hm
              · exfalso
                rw [PeerOutcome.response.injEq, PeerBody.fields.injEq] at hm
                apply hw
                rw [Bool.and_eq_true, decide_eq_true_iff]
                exact ⟨hm.2.1 ▸ h3, hm.2.2 ▸ h4⟩
              · exact Or.inr ⟨len', c, hm, h3, h4⟩
        · rw [if_neg hs] at h
          refine ih _ _ _ h ?_
          rcases hd with hd | ⟨len', c, hmem, h3, h4⟩
          · exact Or.inl hd
          · rcases List.mem_cons.mp hmem with hm | hm
            · exfalso
              apply hs
              rw [PeerOutcome.response.injEq] at hm
              rw [← hm.1]
              rfl
            · exact Or.inr ⟨len', c, hm, h3, h4⟩

/-- A take-prefix equals a replicate iff every position below the bound
holds that character. -/
theorem take_eq_replicate_iff (ch : Char) :
    ∀ (d : Nat) (l : List Char),
      l.take d = List.replicate d ch ↔ ∀ i, i < d → l.get? i = some ch := by
  intro d
  induction d with
  | zero => intro l; simp
  | succ n ih =>
    intro l
    cases l with
    | nil =>
      simp only [List.take_nil, List.replicate_succ]
      constructor
      · intro h; exact absurd h (by simp)
      · intro h; exact absurd (h 0 (Nat.succ_pos n)) (by simp)
    | cons c cs =>
      simp only [List.take_succ_cons, List.replicate_succ, List.cons.injEq]
      rw [ih cs]
      constructor
      · rintro ⟨rfl, h⟩ i hi
        cases i with
        | zero => rfl
        | succ j => exact h j (by omega)
      · intro h
        refine ⟨by simpa using h 0 (Nat.succ_pos n), ?_⟩
        intro j hj
        simpa using h (j + 1) (by omega)

/-- `valid_proof` unfolded to a prefix condition on the hex digest. -/
theorem valid_proof_iff_take (d : Nat) (lp p : Int) :
    valid_proof d lp p = true ↔
      (sha256hex (strBytes (toString lp ++ toString p))).take d =
        List.replicate d '0' := by
  simp [valid_proof]

/-- C2: `valid_proof(last_proof, proof)` holds iff the SHA-256 hex digest
of the textual concatenation of the two integers has its first
`difficulty` characters all `'0'`; and whenever some valid proof exists
(a valid candidate `n` is given), the proof-of-work search loop, with
enough fuel to reach it, returns the smallest non-negative valid proof. -/
theorem pow_valid_iff_and_search_minimal :
    (∀ (d : Nat) (lp p : Int), valid_proof d lp p = true ↔
       ∀ i, i < d →
         (sha256hex (strBytes (toString lp ++ toString p))).get? i = some '0') ∧
    (∀ (d : Nat) (lp : Int) (n : Nat), valid_proof d lp (Int.ofNat n) = true →
       ∃ p, p ≤ n ∧ proof_of_work d lp (n + 1) = some p ∧
         valid_proof d lp (Int.ofNat p) = true ∧
         ∀ q, q < p → valid_proof d lp (Int.ofNat q) = false) := by
  constructor
  · intro d lp p
    rw [valid_proof_iff_take, take_eq_replicate_iff]
  · intro d lp n hn
    obtain ⟨p, -, hp2, hp3, hp4, hp5⟩ :=
      proof_of_work_from_finds d lp (n + 1) 0 n (by omega) (by simpa using hn)
    exact ⟨p, by omega, hp3, hp4, fun q hq => hp5 q (Nat.zero_le q) hq⟩

/-- C2 witness: at difficulty 1 with `last_proof = 0`, candidate 3 is
valid, and the search returns 3 as the least valid proof. -/
theorem pow_valid_iff_and_search_minimal_witness :
    valid_proof 1 0 (Int.ofNat 3) = true ∧
    ∃ p, p ≤ 3 ∧ proof_of_work 1 0 4 = some p ∧
      valid_proof 1 0 (Int.ofNat p) = true ∧
      ∀ q, q < p → valid_proof 1 0 (Int.ofNat q) = false :=
  ⟨by decide, pow_valid_iff_and_search_minimal.2 1 0 3 (by decide)⟩

/-- C3: `is_valid_chain` returns true exactly on non-empty chains whose
first block has the sentinel previous hash `'0'` and proof 1 and in which
every later block stores the hash of its predecessor and a proof that
validates against the predecessor's proof; it returns false as soon as
any of these checks fails (the definition evaluates them in source order
with short-circuit). -/
theorem validator_characterization (d : Nat) (c : List Block) :
    is_valid_chain d c = true ↔
      c ≠ [] ∧
      (∀ g, c.get? 0 = some g → g.previous_hash = some "0" ∧ g.proof = 1) ∧
      (∀ i a b, c.get? i = some a → c.get? (i + 1) = some b →
        b.previous_hash = some (pyhash a) ∧ valid_proof d a.proof b.proof = true) :=
  is_valid_chain_iff d c

/-- C1: `resolve_conflicts` (when it completes) replaces the local chain
only with a fetched 200-status chain whose reported length strictly
exceeds the local chain's length and which passes the validator — so an
equal-length foreign chain never replaces the local one — returns true
exactly when such a chain was adopted, and leaves the chain unchanged
when it returns false. -/
theorem resolve_replaces_only_strictly_longer_valid (st : BState)
    (outcomes : List PeerOutcome) (replaced : Bool) (st' : BState)
    (h : resolve_conflicts st outcomes = Except.ok (replaced, st')) :
    (replaced = true ↔ ∃ len c,
        PeerOutcome.response 200 (PeerBody.fields len c) ∈ outcomes ∧
        (st.chain.length : Int) < len ∧ is_valid_chain st.difficulty c = true) ∧
    (replaced = true → ∃ len c,
        PeerOutcome.response 200 (PeerBody.fields len c) ∈ outcomes ∧
        (st.chain.length : Int) < len ∧ is_valid_chain st.difficulty c = true ∧
        st'.chain = c) ∧
    (replaced = false → st' = st) := by
  simp only [resolve_conflicts] at h
  cases hr : resolveLoop st.difficulty outcomes (st.chain.length : Int) none with
  | error e => rw [hr] at h; exact absurd h (by simp)
  | ok best =>
    rw [hr] at h
    cases best with
    | none =>
      simp only [Except.ok.injEq, Prod.mk.injEq] at h
      obtain ⟨hrep, hst⟩ := h
      subst hrep
      subst hst
      refine ⟨?_, by simp, fun _ => rfl⟩
      constructor
      · intro hh; exact absurd hh (by simp)
      · rintro ⟨len, c, hmem, hlt, hvalid⟩
        exact absurd rfl
          (resolveLoop_progress _ _ _ _ _ hr (Or.inr ⟨len, c, hmem, hlt, hvalid⟩))
    | some c =>
      rcases resolveLoop_some _ _ _ _ _ hr with h1 | ⟨len, hmem, hlt, hvalid⟩
      · exact absurd h1 (by simp)
      · have hce : c.isEmpty = false := by
          cases c with
          | nil => exact absurd hvalid (by simp [is_valid_chain])
          | cons x xs => rfl
        have h' : (if c.isEmpty = true then Except.ok (false, st)
            else Except.ok (true, { st with chain := c })) =
            Except.ok (replaced, st') := h
        rw [if_neg (by rw [hce]; simp)] at h'
        simp only [Except.ok.injEq, Prod.mk.injEq] at h'
        obtain ⟨hrep, hst⟩ := h'
        subst hrep
        subst hst
        refine ⟨?_, ?_, by simp⟩
        · exact ⟨fun _ => ⟨len, c, hmem, hlt, hvalid⟩, fun _ => rfl⟩
        · exact fun _ => ⟨len, c, hmem, hlt, hvalid, rfl⟩

/-- C1 witness: with no peers the resolution completes, returns false and
keeps the state. -/
theorem resolve_replaces_only_strictly_longer_valid_witness :
    ∃ st', resolve_conflicts (Blockchain.init 4 "t") [] = Except.ok (false, st') ∧
      st' = Blockchain.init 4 "t" := by
  have h : resolve_conflicts (Blockchain.init 4 "t") [] =
      Except.ok (false, Blockchain.init 4 "t") := rfl
  exact ⟨_, h, (resolve_replaces_only_strictly_longer_valid _ _ _ _ h).2.2 rfl⟩

/-- C7: the source catches only `requests.RequestException`; unreachable
peers and non-200 responses are skipped without mutating state, but a 200
response whose JSON body lacks the `length`/`chain` key raises an
uncaught `KeyError` that aborts the whole resolution — contradicting the
claim that malformed responses never abort it.  First conjunct: two
benign failures are skipped, then the malformed body aborts.  Second
conjunct: with only benign failures the resolution completes unchanged. -/
theorem resolve_aborts_on_malformed_peer_body :
    resolve_conflicts (Blockchain.init 4 "t")
      [PeerOutcome.transportError,
       PeerOutcome.response 404 (PeerBody.fields 99 []),
       PeerOutcome.response 200 PeerBody.malformed] = Except.error () ∧
    resolve_conflicts (Blockchain.init 4 "t")
      [PeerOutcome.transportError,
       PeerOutcome.response 500 PeerBody.malformed] =
      Except.ok (false, Blockchain.init 4 "t") :=
  ⟨rfl, rfl⟩

/-- C10: a completed `resolve_conflicts` never touches the pending
transaction pool, the peer set or the difficulty, whether or not the
chain was replaced. -/
theorem resolve_preserves_pool_nodes_difficulty (st : BState)
    (outcomes : List PeerOutcome) (replaced : Bool) (st' : BState)
    (h : resolve_conflicts st outcomes = Except.ok (replaced, st')) :
    st'.current_transactions = st.current_transactions ∧
    st'.nodes = st.nodes ∧ st'.difficulty = st.difficulty := by
  simp only [resolve_conflicts] at h
  cases hr : resolveLoop st.difficulty outcomes (st.chain.length : Int) none with
  | error e => rw [hr] at h; exact absurd h (by simp)
  | ok best =>
    rw [hr] at h
    cases best with
    | none =>
      simp only [Except.ok.injEq, Prod.mk.injEq] at h
      rw [← h.2]
      exact ⟨rfl, rfl, rfl⟩
    | some c =>
      have h' : (if c.isEmpty = true then Except.ok (false, st)
          else Except.ok (true, { st with chain := c })) =
          Except.ok (replaced, st') := h
      by_cases hce : c.isEmpty = true
      · rw [if_pos hce] at h'
        simp only [Except.ok.injEq, Prod.mk.injEq] at h'
        rw [← h'.2]
        exact ⟨rfl, rfl, rfl⟩
      · rw [if_neg hce] at h'
        simp only [Except.ok.injEq, Prod.mk.injEq] at h'
        rw [← h'.2]
        exact ⟨rfl, rfl, rfl⟩

/-- C10 witness: resolution over an empty peer list preserves the pool,
the peer set and the difficulty. -/
theorem resolve_preserves_pool_nodes_difficulty_witness :
    ∃ st', resolve_conflicts (Blockchain.init 3 "s") [] = Except.ok (false, st') ∧
      st'.current_transactions = (Blockchain.init 3 "s").current_transactions ∧
      st'.nodes = (Blockchain.init 3 "s").nodes ∧
      st'.difficulty = (Blockchain.init 3 "s").difficulty := by
  have h : resolve_conflicts (Blockchain.init 3 "s") [] =
      Except.ok (false, Blockchain.init 3 "s") := rfl
  exact ⟨_, h, resolve_preserves_pool_nodes_difficulty _ _ _ _ h⟩

/-- C5: a successful `mine_block` leaves the pool empty, seals exactly the
pre-mine pool contents in order into the new block, links the block to the
hash of the previous chain tail, and appends it as the new tail, growing
the chain by one; and neither `add_transaction` nor `register_node`
touches the chain, so mining is the only ledger-local operation that
grows it. -/
theorem mine_drains_pool_and_appends (st : BState) (fuel : Nat) (now : String)
    (b : Block) (st' : BState) (h : mine_block st fuel now = some (b, st')) :
    st'.current_transactions = [] ∧
    b.transactions = st.current_transactions ∧
    (∀ lb, st.chain.getLast? = some lb → b.previous_hash = some (pyhash lb)) ∧
    st'.chain = st.chain ++ [b] ∧
    st'.chain.length = st.chain.length + 1 ∧
    (∀ sender recipient amount ts r st₂,
      add_transaction st sender recipient amount ts = some (r, st₂) →
        st₂.chain = st.chain) ∧
    (∀ addr st₃, register_node st addr = Except.ok st₃ → st₃.chain = st.chain) := by
  simp only [mine_block] at h
  cases hlb : st.chain.getLast? with
  | none => rw [hlb] at h; exact absurd h (by simp)
  | some lb =>
    rw [hlb] at h
    have h1 : (match proof_of_work st.difficulty lb.proof fuel with
        | none => (none : Option (Block × BState))
        | some proof =>
            some (create_block st (Int.ofNat proof) (some (pyhash lb)) now)) =
        some (b, st') := h
    cases hpw : proof_of_work st.difficulty lb.proof fuel with
    | none =>
      rw [hpw] at h1
      exact absurd h1 (by simp)
    | some pf =>
      rw [hpw] at h1
      have h2 : some (create_block st (Int.ofNat pf) (some (pyhash lb)) now) =
          some (b, st') := h1
      rw [Option.some_inj] at h2
      have hb : b = (create_block st (Int.ofNat pf) (some (pyhash lb)) now).1 := by
        rw [h2]
      have hst : st' = (create_block st (Int.ofNat pf) (some (pyhash lb)) now).2 := by
        rw [h2]
      subst hb
      subst hst
      have hchain : (create_block st (Int.ofNat pf) (some (pyhash lb)) now).2.chain =
          st.chain ++ [(create_block st (Int.ofNat pf) (some (pyhash lb)) now).1] := rfl
      refine ⟨rfl, rfl, ?_, rfl, by rw [hchain]; simp, ?_, ?_⟩
      · intro lb' hlb'
        rw [Option.some_inj] at hlb'
        rw [← hlb']
        rfl
      · intro sender recipient amount ts r st₂ ha
        simp only [add_transaction, hlb, Option.some_inj, Prod.mk.injEq] at ha
        rw [← ha.2]
      · intro addr st₃ hreg
        simp only [register_node] at hreg
        cases hp : pyUrlparse addr with
        | error e => rw [hp] at hreg; exact absurd hreg (by simp)
        | ok np =>
          rw [hp] at hreg
          have hreg' : (if np.1 ≠ "" then Except.ok { st with nodes := st.nodes.insert np.1 }
              else if np.2 ≠ "" then Except.ok { st with nodes := st.nodes.insert np.2 }
              else Except.error "Invalid URL") = Except.ok st₃ := hreg
          by_cases h1 : np.1 ≠ ""
          · rw [if_pos h1] at hreg'
            simp only [Except.ok.injEq] at hreg'
            rw [← hreg']
          · rw [if_neg h1] at hreg'
            by_cases h2 : np.2 ≠ ""
            · rw [if_pos h2] at hreg'
              simp only [Except.ok.injEq] at hreg'
              rw [← hreg']
            · rw [if_neg h2] at hreg'
              exact absurd hreg' (by simp)

/-- Start state for the concrete mining run: a fresh difficulty-0 ledger. -/
def mineDemoStart : BState := Blockchain.init 0 "t"

/-- The block the concrete mining run seals (proof 0 is valid at
difficulty 0; the previous hash is the digest of the genesis block's
canonical serialization). -/
def mineDemoBlock : Block :=
  { index := 2, timestamp := "u", transactions := [], proof := 0,
    previous_hash :=
      some "62437e8ff788c11442617a69c818858218dad6a9568dac1e36b11b490b56b049" }

/-- The state after the concrete mining run. -/
def mineDemoEnd : BState :=
  { chain := [{ index := 1, timestamp := "t", transactions := [], proof := 1,
                previous_hash := some "0" },
              mineDemoBlock],
    current_transactions := [], nodes := [], difficulty := 0 }

set_option maxRecDepth 100000 in
/-- C5 witness: the concrete mining run succeeds, empties the pool and
grows the chain from one block to two. -/
theorem mine_drains_pool_and_appends_witness :
    mine_block mineDemoStart 1 "u" = some (mineDemoBlock, mineDemoEnd) ∧
    mineDemoEnd.current_transactions = [] ∧
    mineDemoEnd.chain.length = mineDemoStart.chain.length + 1 := by
  have h : mine_block mineDemoStart 1 "u" = some (mineDemoBlock, mineDemoEnd) := by
    decide
  exact ⟨h, (mine_drains_pool_and_appends _ _ _ _ _ h).1,
    (mine_drains_pool_and_appends _ _ _ _ _ h).2.2.2.2.1⟩

/-- C6 (amended): `add_transaction` performs no input validation at all —
for every sender, recipient and amount (empty identifiers included) it
appends the transaction to the pool and returns `last_block.index + 1`. -/
theorem add_transaction_appends_unconditionally (st : BState)
    (sender recipient : String) (amount : Int) (now : String) (lb : Block)
    (h : st.chain.getLast? = some lb) :
    add_transaction st sender recipient amount now =
      some (lb.index + 1,
        { st with current_transactions := st.current_transactions ++
            [{ sender := sender, recipient := recipient, amount := amount,
               timestamp := now }] }) := by
  simp only [add_transaction, h]

/-- C6 counterexample: a transaction with empty sender and recipient is
not rejected — it enters the pool and the call returns index 2. -/
theorem add_transaction_accepts_empty_identifiers :
    add_transaction (Blockchain.init 4 "t") "" "" 5 "u" =
      some (2,
        { chain := [{ index := 1, timestamp := "t", transactions := [], proof := 1,
                      previous_hash := some "0" }],
          current_transactions :=
            [{ sender := "", recipient := "", amount := 5, timestamp := "u" }],
          nodes := [], difficulty := 4 }) := by
  decide

/-- C6 witness: the amended statement applied to a fresh ledger. -/
theorem add_transaction_appends_unconditionally_witness :
    ∃ v, add_transaction (Blockchain.init 2 "g") "A" "B" 10 "u" = some v := by
  have h : (Blockchain.init 2 "g").chain.getLast? =
      some { index := 1, timestamp := "g", transactions := [], proof := 1,
             previous_hash := some "0" } := by decide
  exact ⟨_, add_transaction_appends_unconditionally _ "A" "B" 10 "u" _ h⟩

set_option maxRecDepth 4000 in
/-- C8: for every difficulty (and construction time) a fresh ledger's
chain is exactly one block with the sentinel previous hash `'0'`, proof 1
and no transactions, and that one-block chain validates. -/
theorem fresh_ledger_genesis_invariant (difficulty : Nat) (now : String) :
    ∃ g, (Blockchain.init difficulty now).chain = [g] ∧
      g.previous_hash = some "0" ∧ g.proof = 1 ∧ g.transactions = [] ∧
      is_valid_chain difficulty (Blockchain.init difficulty now).chain = true := by
  exact ⟨{ index := 1, timestamp := now, transactions := [], proof := 1,
           previous_hash := some "0" }, rfl, rfl, rfl, rfl, rfl⟩

/-- Replacing any single block's `previous_hash` by a different value
invalidates a valid chain: at position 0 the sentinel check fails, at a
later position the linkage check against the unchanged predecessor
fails. -/
theorem set_previous_hash_ne_invalid (d : Nat) (c : List Block) (i : Nat)
    (v : Option String) (hi : i < c.length)
    (hval : is_valid_chain d c = true)
    (hne : v ≠ (c.get ⟨i, hi⟩).previous_hash) :
    is_valid_chain d (c.set i { c.get ⟨i, hi⟩ with previous_hash := v }) = false := by
  rw [Bool.eq_false_iff]
  intro habs
  obtain ⟨-, hgen, hlink⟩ := (is_valid_chain_iff d c).mp hval
  obtain ⟨-, hgen', hlink'⟩ := (is_valid_chain_iff _ _).mp habs
  cases i with
  | zero =>
    have hg := hgen _ (List.get?_eq_get hi)
    have h0' : (c.set 0 { c.get ⟨0, hi⟩ with previous_hash := v }).get? 0 =
        some { c.get ⟨0, hi⟩ with previous_hash := v } := by
      rw [List.get?_set_of_lt' _ _ hi, if_pos rfl]
    have hg' := hgen' _ h0'
    exact hne (hg'.1.trans hg.1.symm)
  | succ j =>
    have hj : j < c.length := by omega
    have hpair := hlink j _ _ (List.get?_eq_get hj) (List.get?_eq_get hi)
    have ha' : (c.set (j + 1) { c.get ⟨j + 1, hi⟩ with previous_hash := v }).get? j =
        c.get? j := by
      rw [List.get?_set_of_lt' _ _ hi, if_neg (Nat.succ_ne_self j)]
    have hb' : (c.set (j + 1)
        { c.get ⟨j + 1, hi⟩ with previous_hash := v }).get? (j + 1) =
        some { c.get ⟨j + 1, hi⟩ with previous_hash := v } := by
      rw [List.get?_set_of_lt' _ _ hi, if_pos rfl]
    have hpair' := hlink' j _ _ (by rw [ha']; exact List.get?_eq_get hj) hb'
    exact hne (hpair'.1.trans hpair.1.symm)

/-- Replacing a block that has a successor by any block whose canonical
digest differs (in particular, one with a mutated transaction amount or
proof) invalidates a valid chain: the successor's stored `previous_hash`
no longer matches the hash of the mutated block. -/
theorem set_interior_digest_ne_invalid (d : Nat) (c : List Block) (i : Nat)
    (b' : Block) (hi : i < c.length) (hsucc : i + 1 < c.length)
    (hval : is_valid_chain d c = true)
    (hdig : pyhash b' ≠ pyhash (c.get ⟨i, hi⟩)) :
    is_valid_chain d (c.set i b') = false := by
  rw [Bool.eq_false_iff]
  intro habs
  obtain ⟨-, -, hlink⟩ := (is_valid_chain_iff d c).mp hval
  obtain ⟨-, -, hlink'⟩ := (is_valid_chain_iff _ _).mp habs
  have hpair := hlink i _ _ (List.get?_eq_get hi) (List.get?_eq_get hsucc)
  have hb : (c.set i b').get? i = some b' := by
    rw [List.get?_set_of_lt' _ _ hi, if_pos rfl]
  have hs : (c.set i b').get? (i + 1) = some (c.get ⟨i + 1, hsucc⟩) := by
    rw [List.get?_set_of_lt' _ _ hi, if_neg (by omega)]
    exact List.get?_eq_get hsucc
  have hpair' := hlink' i _ _ hb hs
  exact hdig (Option.some_inj.mp (hpair'.1.symm.trans hpair.1))

/-- C4 (amended): in a valid chain of length at least 2, (i) replacing
any single block's `previous_hash` by a different value yields an
invalid chain, and (ii) replacing any block that has a successor — in
particular mutating an interior block's transaction amount or its proof —
yields an invalid chain whenever the mutation changes the block's
canonical digest, because the successor's stored hash no longer matches.
The tail block is the only gap forced by the counterexample: no later
block hashes the tail, so its mutated amount goes undetected and a
mutated tail proof is caught only when it fails the PoW check itself. -/
theorem tampering_single_block_invalidates (d : Nat) (c : List Block) (i : Nat)
    (hi : i < c.length) (_hlen : 2 ≤ c.length)
    (hval : is_valid_chain d c = true) :
    (∀ v, v ≠ (c.get ⟨i, hi⟩).previous_hash →
      is_valid_chain d (c.set i { c.get ⟨i, hi⟩ with previous_hash := v }) = false) ∧
    (∀ b', i + 1 < c.length → pyhash b' ≠ pyhash (c.get ⟨i, hi⟩) →
      is_valid_chain d (c.set i b') = false) :=
  ⟨fun v hne => set_previous_hash_ne_invalid d c i v hi hval hne,
   fun b' hsucc hdig => set_interior_digest_ne_invalid d c i b' hi hsucc hval hdig⟩

/-- The genesis block of the concrete two-block demonstration chain. -/
def demoGenesis : Block :=
  { index := 1, timestamp := "t", transactions := [], proof := 1,
    previous_hash := some "0" }

/-- The second block of the demonstration chain: it carries one
transaction, links to the genesis hash, and proof 25 satisfies
difficulty 1 against the genesis proof 1. -/
def demoTxBlock : Block :=
  { index := 2, timestamp := "u",
    transactions := [{ sender := "A", recipient := "B", amount := 10,
                       timestamp := "v" }],
    proof := 25,
    previous_hash :=
      some "62437e8ff788c11442617a69c818858218dad6a9568dac1e36b11b490b56b049" }

/-- A concrete two-block chain that `is_valid_chain` accepts at
difficulty 1. -/
def demoChain : List Block := [demoGenesis, demoTxBlock]

set_option maxRecDepth 100000 in
/-- C4 witness: the demonstration chain is valid; replacing the tail
block's `previous_hash` by `"x"` invalidates it, and replacing the
genesis block by a digest-changing mutant (a smuggled transaction of
amount 99) breaks the tail's linkage and invalidates it. -/
theorem tampering_single_block_invalidates_witness :
    is_valid_chain 1 demoChain = true ∧
    is_valid_chain 1 (demoChain.set 1
      { demoTxBlock with previous_hash := some "x" }) = false ∧
    is_valid_chain 1 (demoChain.set 0
      { demoGenesis with transactions :=
          [{ sender := "A", recipient := "B", amount := 99,
             timestamp := "v" }] }) = false := by
  have hv : is_valid_chain 1 demoChain = true := by decide
  refine ⟨hv, ?_, ?_⟩
  · exact (tampering_single_block_invalidates 1 demoChain 1 (by decide) (by decide)
      hv).1 (some "x") (by decide)
  · exact (tampering_single_block_invalidates 1 demoChain 0 (by decide) (by decide)
      hv).2
      { demoGenesis with transactions :=
          [{ sender := "A", recipient := "B", amount := 99, timestamp := "v" }] }
      (by decide) (by decide)

set_option maxRecDepth 100000 in
/-- C4 counterexample: mutating the *last* block's transaction amount
(10 to 11) leaves `is_valid_chain` true, because no later block hashes
the last block — the claim fails as stated. -/
theorem last_block_amount_tampering_undetected :
    is_valid_chain 1 demoChain = true ∧
    is_valid_chain 1 (demoChain.set 1
      { demoTxBlock with transactions :=
          [{ sender := "A", recipient := "B", amount := 11,
             timestamp := "v" }] }) = true :=
  ⟨by decide, by decide⟩

/-- C9 (amended): registering a schemed URL adds its network location and
registering the dotted bare address `10.0.0.6:5000` adds it verbatim
(first conjunct, the spec's scenario); re-registration is a no-op (second
conjunct); and registration fails exactly when both the parsed network
location and the parsed path are empty (third conjunct).  The original
claim that *every* bare `host:port` string is kept as-is fails when the
host parses as a URL scheme — see the counterexample. -/
theorem register_node_normalization_and_errors :
    (∃ stA stB,
      register_node (Blockchain.init 4 "t") "http://10.0.0.5:5000" =
        Except.ok stA ∧
      register_node stA "10.0.0.6:5000" = Except.ok stB ∧
      ∀ x, x ∈ stB.nodes ↔ (x = "10.0.0.5:5000" ∨ x = "10.0.0.6:5000")) ∧
    (∀ st st' addr, register_node st addr = Except.ok st' →
      register_node st' addr = Except.ok st') ∧
    (∀ st addr netloc path, pyUrlparse addr = Except.ok (netloc, path) →
      ((∃ st', register_node st addr = Except.ok st') ↔
        (netloc ≠ "" ∨ path ≠ ""))) := by
  refine ⟨?_, ?_, ?_⟩
  · refine ⟨{ Blockchain.init 4 "t" with nodes := ["10.0.0.5:5000"] },
      { Blockchain.init 4 "t" with
          nodes := ["10.0.0.6:5000", "10.0.0.5:5000"] }, rfl, rfl, ?_⟩
    intro x
    simp [List.mem_cons, List.mem_singleton, or_comm]
  · intro st st' addr hreg
    simp only [register_node] at hreg ⊢
    cases hp : pyUrlparse addr with
    | error e =>
      rw [hp] at hreg
      have hreg' : (Except.error e : Except String BState) = Except.ok st' := hreg
      exact absurd hreg' (by simp)
    | ok np =>
      rw [hp] at hreg
      obtain ⟨netloc, path⟩ := np
      have hreg' : (if netloc ≠ "" then
          Except.ok { st with nodes := st.nodes.insert netloc }
        else if path ≠ "" then
          Except.ok { st with nodes := st.nodes.insert path }
        else Except.error "Invalid URL") = Except.ok st' := hreg
      show (if netloc ≠ "" then
          Except.ok { st' with nodes := st'.nodes.insert netloc }
        else if path ≠ "" then
          Except.ok { st' with nodes := st'.nodes.insert path }
        else Except.error "Invalid URL") = Except.ok st'
      by_cases h1 : netloc ≠ ""
      · rw [if_pos h1] at hreg'
        rw [if_pos h1]
        simp only [Except.ok.injEq] at hreg'
        rw [← hreg']
        have hins : (st.nodes.insert netloc).insert netloc =
            st.nodes.insert netloc :=
          List.insert_of_mem (List.mem_insert_self _ _)
        show Except.ok { st with nodes := (st.nodes.insert netloc).insert netloc } =
          Except.ok { st with nodes := st.nodes.insert netloc }
        rw [hins]
      · rw [if_neg h1] at hreg'
        rw [if_neg h1]
        by_cases h2 : path ≠ ""
        · rw [if_pos h2] at hreg'
          rw [if_pos h2]
          simp only [Except.ok.injEq] at hreg'
          rw [← hreg']
          have hins : (st.nodes.insert path).insert path = st.nodes.insert path :=
            List.insert_of_mem (List.mem_insert_self _ _)
          show Except.ok { st with nodes := (st.nodes.insert path).insert path } =
            Except.ok { st with nodes := st.nodes.insert path }
          rw [hins]
        · rw [if_neg h2] at hreg'
          exact absurd hreg' (by simp)
  · intro st addr netloc path hp
    simp only [register_node, hp]
    by_cases h1 : netloc ≠ ""
    · rw [if_pos h1]
      exact ⟨fun _ => Or.inl h1, fun _ => ⟨_, rfl⟩⟩
    · rw [if_neg h1]
      by_cases h2 : path ≠ ""
      · rw [if_pos h2]
        exact ⟨fun _ => Or.inr h2, fun _ => ⟨_, rfl⟩⟩
      · rw [if_neg h2]
        push_neg at h1 h2
        constructor
        · rintro ⟨st', hst'⟩
          exact absurd hst' (by simp)
        · rintro (hc | hc)
          · exact absurd h1 hc
          · exact absurd h2 hc

set_option maxRecDepth 4000 in
/-- C9 counterexample: `urlparse` treats the alphabetic host of
`localhost:5000` as a URL scheme, so registration records only `"5000"`,
not the whole `host:port` string — the claim's "bare host:port accepted
as-is" fails. -/
theorem register_node_strips_alphabetic_host :
    ∃ st', register_node (Blockchain.init 4 "t") "localhost:5000" =
        Except.ok st' ∧
      st'.nodes = ["5000"] ∧ "localhost:5000" ∉ st'.nodes := by
  refine ⟨{ Blockchain.init 4 "t" with nodes := ["5000"] }, rfl, rfl, by decide⟩

set_option maxRecDepth 4000 in
/-- C9 witness: the amended error characterization applied to an address
with a network location. -/
theorem register_node_normalization_and_errors_witness :
    ∃ st', register_node (Blockchain.init 5 "w") "http://peer:80" =
      Except.ok st' := by
  have hp : pyUrlparse "http://peer:80" = Except.ok ("peer:80", "") := rfl
  exact (register_node_normalization_and_errors.2.2
    (Blockchain.init 5 "w") "http://peer:80" "peer:80" "" hp).mpr
    (Or.inl (by decide))
